import Mathlib

/-!
Verification of the key-value event-data scanner.

The source program reads a text file containing `key:"value"` pairs,
parses them with a hand-written scanner over a peekable character
iterator, optionally derives a fifth value from four hex-encoded
entries, and prints the resulting mapping.

The embedding below models the character stream as a `List Char`
(Rust iterates `data.chars()`, i.e. Unicode scalar values), strings as
`List Char`, and the `serde_json::Map` as an association list with
no duplicate keys, where `mapInsert` overwrites the value of an
existing key in place.  Fallible Rust functions returning
`Result<_, ParseError>` become `Except ParseError _`; functions that
can panic become `Option`-valued.  The top-level scanning loop of
`parse_event_data` consumes at least one character per iteration, so
it is embedded with a fuel parameter initialised to the input length;
`parsePairsAux_fuel` below shows the result does not depend on the
fuel once the fuel is at least the input length.
-/

/-- Error taxonomy of the scanner, from the `ParseError` enum. -/
inductive ParseError where
  | InvalidKey
  | InvalidValue
  deriving DecidableEq, Repr

deriving instance DecidableEq for Except

/-- Unicode White_Space classification, as used by Rust's
`char::is_whitespace` (the `White_Space` property). -/
def isWhitespaceRust (c : Char) : Bool :=
  let n := c.toNat
  (0x9 ≤ n && n ≤ 0xD) || n == 0x20 || n == 0x85 || n == 0xA0 ||
  n == 0x1680 || (0x2000 ≤ n && n ≤ 0x200A) ||
  n == 0x2028 || n == 0x2029 || n == 0x202F || n == 0x205F || n == 0x3000

/-- Embedding of `skip_leading_whitespace`: drop the longest
whitespace run at the head of the stream. -/
def skip_leading_whitespace : List Char → List Char
  | [] => []
  | c :: cs => if isWhitespaceRust c then skip_leading_whitespace cs else c :: cs

/-- Embedding of the `while let` loop of `parse_value` (lines 157-182
of the source): scan until an unescaped closing quote, decoding the
two-character escape backslash-quote to a literal quote.  The
accumulated value is the first component; the second is the remaining
stream.  When the stream is exhausted the Rust loop simply falls
through to `Ok(value)`, which is mirrored by the first equation. -/
def parseValueLoop : List Char → List Char → Except ParseError (List Char × List Char)
  | [], acc => .ok (acc, [])
  | c :: cs, acc =>
    if c = '"' then .ok (acc, cs)
    else if c = '\\' then
      match cs with
      | [] => .error ParseError.InvalidValue
      | d :: ds =>
        if d = '"' then parseValueLoop ds (acc ++ ['"'])
        else .error ParseError.InvalidValue
    else parseValueLoop cs (acc ++ [c])

/-- Embedding of `parse_value`: skip leading whitespace, require an
opening double quote (else `InvalidValue`, also on exhausted input),
then scan the quoted content. -/
def parse_value (s : List Char) : Except ParseError (List Char × List Char) :=
  match skip_leading_whitespace s with
  | [] => .error ParseError.InvalidValue
  | c :: cs =>
    if c = '"' then parseValueLoop cs []
    else .error ParseError.InvalidValue

/-- Embedding of the `while let` loop of `parse_key` (lines 195-203):
accumulate characters until a `:` is consumed or the stream ends. -/
def parseKeyLoop : List Char → List Char → List Char × List Char
  | [], acc => (acc, [])
  | c :: cs, acc => if c = ':' then (acc, cs) else parseKeyLoop cs (acc ++ [c])

/-- Embedding of `parse_key`: skip leading whitespace, run the key
loop, then fail with `InvalidKey` when `it.peek().is_none()`, i.e.
exactly when no characters remain after the loop. -/
def parse_key (s : List Char) : Except ParseError (List Char × List Char) :=
  match parseKeyLoop (skip_leading_whitespace s) [] with
  | (k, rest) => if rest = [] then .error ParseError.InvalidKey else .ok (k, rest)

/-- The result mapping: `serde_json::Map` modelled as an association
list whose keys are kept free of duplicates by `mapInsert`. -/
abbrev EventMap := List (List Char × List Char)

/-- Key membership test for the mapping model. -/
def containsKey : EventMap → List Char → Bool
  | [], _ => false
  | p :: m, k => if p.1 = k then true else containsKey m k

/-- Lookup in the mapping model, the `get`/index contract of the map. -/
def mapLookup : EventMap → List Char → Option (List Char)
  | [], _ => none
  | p :: m, k => if p.1 = k then some p.2 else mapLookup m k

/-- Insert into the mapping model: `Map::insert` overwrites the value
stored under an existing key and otherwise adds a new entry. -/
def mapInsert (m : EventMap) (k v : List Char) : EventMap :=
  if containsKey m k then m.map (fun p => if p.1 = k then (k, v) else p)
  else m ++ [(k, v)]

/-- Embedding of the top-level `while let Some(&c) = it.peek()` loop
of `parse_event_data` (lines 111-122): skip a whitespace character, or
parse one key and one value and insert the pair.  Each iteration
consumes at least one character, so a fuel equal to the input length
suffices; the fuel-zero equation on a non-empty stream is unreachable
for such fuel (see `parsePairsAux_fuel`). -/
def parsePairsAux : Nat → List Char → EventMap → Except ParseError EventMap
  | _, [], m => .ok m
  | 0, _ :: _, _ => .error ParseError.InvalidKey
  | fuel + 1, c :: cs, m =>
    if isWhitespaceRust c then parsePairsAux fuel cs m
    else
      match parse_key (c :: cs) with
      | .error e => .error e
      | .ok (k, rest) =>
        match parse_value rest with
        | .error e => .error e
        | .ok (v, rest2) => parsePairsAux fuel rest2 (mapInsert m k v)

/-- Embedding of `parse_event_data` applied to the contents of the
input file (the file I/O itself is not modelled): scan the whole
character stream into a mapping. -/
def parse_event_data (data : List Char) : Except ParseError EventMap :=
  parsePairsAux data.length data []

/-- Re-quoting of a parsed value for the custom format: every literal
`"` is written as the two-character escape backslash-quote.  This is
the encoding the specification's round-trip property refers to. -/
def encodeValue : List Char → List Char
  | [] => []
  | c :: cs => if c = '"' then '\\' :: '"' :: encodeValue cs else c :: encodeValue cs

/-- Rendering of one `key:"value"` pair in the custom input format. -/
def renderPair (k v : List Char) : List Char :=
  k ++ ':' :: '"' :: encodeValue v ++ ['"']

/-- Modelled from the spec: a well-formed input in the sense of the
specification, namely zero or more `key:"value"` pairs, each preceded
by a (possibly empty) whitespace run, followed by a trailing
whitespace run.  Each list element carries the separating whitespace,
the key and the (decoded) value. -/
def renderInput : List (List Char × List Char × List Char) → List Char → List Char
  | [], trail => trail
  | t :: ts, trail => t.1 ++ renderPair t.2.1 t.2.2 ++ renderInput ts trail

/-- Rendering of a whole mapping back to the custom format, one
space-separated `key:"value"` pair per entry. -/
def renderMap (m : EventMap) : List Char :=
  renderInput (m.map fun p => ([' '], p.1, p.2)) []

/-- A whitespace run: every character classifies as whitespace. -/
def allWs (w : List Char) : Prop := ∀ c ∈ w, isWhitespaceRust c = true

instance (w : List Char) : Decidable (allWs w) := by
  unfold allWs; infer_instance

/-- Keys that render faithfully: no `:` (the key terminator) and no
leading whitespace (which the scanner would strip). -/
def keyOk (k : List Char) : Prop :=
  ':' ∉ k ∧ ∀ c ∈ k.take 1, isWhitespaceRust c = false

instance (k : List Char) : Decidable (keyOk k) := by
  unfold keyOk; infer_instance

/-- Values that render faithfully: no backslash (the scanner offers no
escape producing one, see the invariant `parse_value` maintains). -/
def valOk (v : List Char) : Prop := '\\' ∉ v

instance (v : List Char) : Decidable (valOk v) := by
  unfold valOk; infer_instance

/-- Hypotheses under which a list of (whitespace, key, value) triples
renders to a well-formed input. -/
def inputOk (ps : List (List Char × List Char × List Char)) : Prop :=
  ∀ t ∈ ps, allWs t.1 ∧ keyOk t.2.1 ∧ valOk t.2.2

instance (ps : List (List Char × List Char × List Char)) : Decidable (inputOk ps) := by
  unfold inputOk; infer_instance

/-- Invariant of mappings built by the scanner: duplicate-free keys,
every key colon-free without leading whitespace, every value
backslash-free. -/
def mapOk (m : EventMap) : Prop :=
  (m.map Prod.fst).Nodup ∧ ∀ p ∈ m, keyOk p.1 ∧ valOk p.2

/-- Last-seen value of a key in a list of (whitespace, key, value)
triples; later entries shadow earlier ones. -/
def lastValue : List (List Char × List Char × List Char) → List Char → Option (List Char)
  | [], _ => none
  | t :: ts, k =>
    match lastValue ts k with
    | some v => some v
    | none => if t.2.1 = k then some t.2.2 else none

/-- The XOR mask from the source: `const XOR_KEY: u16 = 0x17F`. -/
def XOR_KEY : Nat := 0x17F

/-- Value of a single hexadecimal digit, as `char::to_digit(16)`. -/
def hexDigitVal? (c : Char) : Option Nat :=
  if '0' ≤ c ∧ c ≤ '9' then some (c.toNat - 48)
  else if 'a' ≤ c ∧ c ≤ 'f' then some (c.toNat - 87)
  else if 'A' ≤ c ∧ c ≤ 'F' then some (c.toNat - 55)
  else none

/-- Accumulating digit loop of `from_str_radix` with radix 16. -/
def hexAccum : List Char → Nat → Option Nat
  | [], acc => some acc
  | c :: cs, acc =>
    match hexDigitVal? c with
    | some d => hexAccum cs (acc * 16 + d)
    | none => none

/-- Digits part of `from_str_radix`: at least one digit required. -/
def hexDigitsVal? (l : List Char) : Option Nat :=
  match l with
  | [] => none
  | _ :: _ => hexAccum l 0

/-- Embedding of `u16::from_str_radix(s, 16)`: an optional `+` sign,
then hexadecimal digits; a `-` sign is rejected outright (the sign
branch of `from_str_radix` only admits `-` for signed types, so for
`u16` any leading `-` is an invalid-digit error), and overflow past
`u16::MAX` is an error.  Since the digits only ever grow the
accumulator, the per-step overflow checks of the source are
equivalent to the final bound check used here. -/
def fromStrRadix16 (l : List Char) : Option Nat :=
  match l with
  | '+' :: rest =>
    match hexDigitsVal? rest with
    | some n => if n < 65536 then some n else none
    | none => none
  | '-' :: _ => none
  | _ =>
    match hexDigitsVal? l with
    | some n => if n < 65536 then some n else none
    | none => none

/-- Embedding of `str::trim_start_matches("0x")`: remove every
repetition of the prefix pattern `0x`. -/
def trimStartMatches0x : List Char → List Char
  | '0' :: 'x' :: rest => trimStartMatches0x rest
  | l => l

/-- Trailing zero bit count of a 16-bit value, as
`u16::trailing_zeros`: the index of the least significant set bit,
or 16 when no bit among the low 16 is set. -/
def trailingZeros16 (n : Nat) : Nat :=
  match (List.range 16).find? (fun i => n.testBit i) with
  | some i => i
  | none => 16

/-- Surrogate test: `char::from_u32` returns `None` exactly on the
UTF-16 surrogate range for arguments below `0x110000`. -/
def isSurrogate (n : Nat) : Bool := 0xD800 ≤ n && n ≤ 0xDFFF

/-- Embedding of `figure_fifth_value`.  The function panics (here:
`none`) when one of the keys `one`..`four` is absent, when its value
does not parse as a 16-bit hexadecimal integer after trimming leading
`0x` repetitions, or when a masked value `v XOR 0x17F` is a UTF-16
surrogate (the debug `eprintln!` converts each masked value with
`char::from_u32(..).expect("TODO")`).  Otherwise it returns
`(m4 + (trailing_zeros(m3 XOR m4) + 1) * 4) XOR 0x17F` computed in
wrapping 16-bit arithmetic, where `mi = vi XOR 0x17F`. -/
def figure_fifth_value (m : EventMap) : Option Nat :=
  match mapLookup m ['o','n','e'], mapLookup m ['t','w','o'],
        mapLookup m ['t','h','r','e','e'], mapLookup m ['f','o','u','r'] with
  | some s1, some s2, some s3, some s4 =>
    match fromStrRadix16 (trimStartMatches0x s1), fromStrRadix16 (trimStartMatches0x s2),
          fromStrRadix16 (trimStartMatches0x s3), fromStrRadix16 (trimStartMatches0x s4) with
    | some v1, some v2, some v3, some v4 =>
      let m1 := v1 ^^^ XOR_KEY
      let m2 := v2 ^^^ XOR_KEY
      let m3 := v3 ^^^ XOR_KEY
      let m4 := v4 ^^^ XOR_KEY
      if isSurrogate m1 || isSurrogate m2 || isSurrogate m3 || isSurrogate m4 then none
      else some (((m4 + (trailingZeros16 (m3 ^^^ m4) + 1) * 4) % 65536) ^^^ XOR_KEY)
    | _, _, _, _ => none
  | _, _, _, _ => none

/-- Lowercase hexadecimal digit character, as used by `format!` with
the `x` specifier. -/
def hexChar (d : Nat) : Char :=
  if d < 10 then Char.ofNat (48 + d) else Char.ofNat (87 + d)

/-- Digit loop for hexadecimal formatting (16 digits of fuel, ample
for 16-bit values). -/
def natToHexAux : Nat → Nat → List Char → List Char
  | 0, _, acc => acc
  | fuel + 1, n, acc =>
    if n = 0 then acc else natToHexAux fuel (n / 16) (hexChar (n % 16) :: acc)

/-- Lowercase hexadecimal rendering without leading zeros, as
`format!` with the `x` specifier produces for a `u16`. -/
def natToHex (n : Nat) : List Char :=
  if n = 0 then ['0'] else natToHexAux 16 n []

/-- Embedding of the enrichment step of `main` (lines 20-23): compute
the fifth value and insert it under the key `five` rendered as `0x`
followed by lowercase hex. -/
def enrich_with_fifth (m : EventMap) : Option EventMap :=
  match figure_fifth_value m with
  | some f => some (mapInsert m ['f','i','v','e'] ('0' :: 'x' :: natToHex f))
  | none => none


/-- Skipping whitespace removes a leading whitespace run. -/
theorem skipWs_append (w s : List Char) (hw : allWs w) :
    skip_leading_whitespace (w ++ s) = skip_leading_whitespace s := by
  induction w with
  | nil => simp
  | cons c w ih =>
    have hc : isWhitespaceRust c = true := hw c (by simp)
    have hw' : allWs w := fun d hd => hw d (List.mem_cons_of_mem _ hd)
    simp [skip_leading_whitespace, hc, ih hw']

/-- Skipping whitespace is the identity when the head character is not
whitespace. -/
theorem skipWs_id (s : List Char)
    (h : ∀ c ∈ s.take 1, isWhitespaceRust c = false) :
    skip_leading_whitespace s = s := by
  cases s with
  | nil => rfl
  | cons c cs => simp [skip_leading_whitespace, h c (by simp)]

/-- The head of the stream after skipping whitespace is not whitespace. -/
theorem skipWs_head (s : List Char) :
    ∀ c ∈ (skip_leading_whitespace s).take 1, isWhitespaceRust c = false := by
  induction s with
  | nil => simp [skip_leading_whitespace]
  | cons c cs ih =>
    by_cases h : isWhitespaceRust c = true
    · simpa [skip_leading_whitespace, h] using ih
    · rw [Bool.not_eq_true] at h
      simp [skip_leading_whitespace, h]

/-- Skipping whitespace never lengthens the stream. -/
theorem skipWs_length (s : List Char) :
    (skip_leading_whitespace s).length ≤ s.length := by
  induction s with
  | nil => simp [skip_leading_whitespace]
  | cons c cs ih =>
    by_cases h : isWhitespaceRust c = true
    · simp only [skip_leading_whitespace, h, if_true, List.length_cons]
      omega
    · rw [Bool.not_eq_true] at h
      simp [skip_leading_whitespace, h]

/-- The key loop consumes up to and including the first colon,
returning the accumulated key and the remainder after the colon. -/
theorem parseKeyLoop_colon (k : List Char) (r : List Char) (hk : ':' ∉ k) :
    ∀ acc, parseKeyLoop (k ++ ':' :: r) acc = (acc ++ k, r) := by
  induction k with
  | nil => intro acc; simp [parseKeyLoop]
  | cons c cs ih =>
    intro acc
    have hc : ¬ c = ':' := fun h => hk (by simp [h])
    have hcs : ':' ∉ cs := fun h => hk (List.mem_cons_of_mem _ h)
    simp [parseKeyLoop, hc, ih hcs]

/-- The key loop consumes the whole stream when it holds no colon. -/
theorem parseKeyLoop_no_colon (t : List Char) (ht : ':' ∉ t) :
    ∀ acc, parseKeyLoop t acc = (acc ++ t, []) := by
  induction t with
  | nil => intro acc; simp [parseKeyLoop]
  | cons c cs ih =>
    intro acc
    have hc : ¬ c = ':' := fun h => ht (by simp [h])
    have hcs : ':' ∉ cs := fun h => ht (List.mem_cons_of_mem _ h)
    simp [parseKeyLoop, hc, ih hcs]

/-- Complete characterisation of the key loop: either the stream
splits at its first colon, or it has none and is consumed whole. -/
theorem parseKeyLoop_spec (t : List Char) : ∀ acc,
    (∃ u r, ':' ∉ u ∧ t = u ++ ':' :: r ∧ parseKeyLoop t acc = (acc ++ u, r)) ∨
    (':' ∉ t ∧ parseKeyLoop t acc = (acc ++ t, [])) := by
  induction t with
  | nil => intro acc; right; exact ⟨by simp, by simp [parseKeyLoop]⟩
  | cons c cs ih =>
    intro acc
    by_cases hc : c = ':'
    · left
      exact ⟨[], cs, by simp, by simp [hc], by simp [parseKeyLoop, hc]⟩
    · rcases ih (acc ++ [c]) with ⟨u, r, hu, ht, hp⟩ | ⟨hn, hp⟩
      · left
        refine ⟨c :: u, r, ?_, by simp [ht], ?_⟩
        · intro hm
          rcases List.mem_cons.mp hm with h | h
          · exact hc h.symm
          · exact hu h
        · simp [parseKeyLoop, hc, hp]
      · right
        constructor
        · intro hm
          rcases List.mem_cons.mp hm with h | h
          · exact hc h.symm
          · exact hn h
        · simp [parseKeyLoop, hc, hp]

/-- Rendering fidelity of `parse_key`: a colon-free key followed by a
colon and a non-empty remainder is parsed back verbatim. -/
theorem parse_key_render (k r : List Char) (hk : keyOk k) (hr : r ≠ []) :
    parse_key (k ++ ':' :: r) = .ok (k, r) := by
  have hskip : skip_leading_whitespace (k ++ ':' :: r) = k ++ ':' :: r := by
    apply skipWs_id
    intro c hc
    cases k with
    | nil =>
      simp at hc
      subst hc
      decide
    | cons a as =>
      have hca : c = a := by simpa using hc
      rw [hca]
      exact hk.2 a (by simp)
  simp [parse_key, hskip, parseKeyLoop_colon k r hk.1, hr]

/-- A successful `parse_key` consumes at least the colon, so the
remainder is strictly shorter than the input. -/
theorem parse_key_length (s k r : List Char) (h : parse_key s = .ok (k, r)) :
    r.length < s.length := by
  rcases parseKeyLoop_spec (skip_leading_whitespace s) [] with ⟨u, r', hu, ht, hp⟩ | ⟨hn, hp⟩
  · by_cases hr : r' = []
    · simp [parse_key, hp, hr] at h
    · simp [parse_key, hp, hr] at h
      have h1 : (skip_leading_whitespace s).length = u.length + 1 + r'.length := by
        rw [ht]; simp; omega
      have h2 := skipWs_length s
      have h3 : r = r' := h.2.symm
      subst h3
      omega
  · simp [parse_key, hp] at h

/-- A successful `parse_key` yields a colon-free key with no leading
whitespace, a non-empty remainder, and the corresponding splitting of
the whitespace-stripped input at its first colon. -/
theorem parse_key_props (s k r : List Char) (h : parse_key s = .ok (k, r)) :
    keyOk k ∧ r ≠ [] ∧ skip_leading_whitespace s = k ++ ':' :: r := by
  rcases parseKeyLoop_spec (skip_leading_whitespace s) [] with ⟨u, r', hu, ht, hp⟩ | ⟨hn, hp⟩
  · by_cases hr : r' = []
    · simp [parse_key, hp, hr] at h
    · simp [parse_key, hp, hr] at h
      obtain ⟨hk, hr2⟩ := h
      refine ⟨⟨?_, ?_⟩, ?_, ?_⟩
      · rw [← hk]; exact hu
      · intro c hc
        rw [← hk] at hc
        cases hu2 : u with
        | nil => rw [hu2] at hc; simp at hc
        | cons a as =>
          rw [hu2] at hc
          have hca : c = a := by simpa using hc
          rw [hca]
          apply skipWs_head s
          rw [ht, hu2]
          simp
      · rw [← hr2]; exact hr
      · rw [← hk, ← hr2]; exact ht
  · simp [parse_key, hp] at h

/-- Splitting a stream at its first colon is unique. -/
theorem colon_split_unique (u r k t : List Char) (hu : ':' ∉ u) (hk : ':' ∉ k)
    (h : u ++ ':' :: r = k ++ ':' :: t) : u = k ∧ r = t := by
  induction u generalizing k with
  | nil =>
    cases k with
    | nil => simp at h; exact ⟨rfl, h⟩
    | cons b bs =>
      simp at h
      exact absurd (by simp [← h.1] : ':' ∈ b :: bs) hk
  | cons a as ih =>
    cases k with
    | nil =>
      simp at h
      exact absurd (by simp [h.1] : ':' ∈ a :: as) hu
    | cons b bs =>
      simp at h
      have hu' : ':' ∉ as := fun hm => hu (List.mem_cons_of_mem _ hm)
      have hk' : ':' ∉ bs := fun hm => hk (List.mem_cons_of_mem _ hm)
      obtain ⟨h1, h2⟩ := ih bs hu' hk' h.2
      exact ⟨by rw [h.1, h1], h2⟩

/-- Characterisation of `InvalidKey`: `parse_key` fails with
`InvalidKey` exactly when the whitespace-stripped input cannot be
split as a colon-free key, a colon, and a non-empty remainder — i.e.
when either no colon occurs, or nothing follows the first colon. -/
theorem parse_key_invalidKey_iff (s : List Char) :
    parse_key s = .error ParseError.InvalidKey ↔
    ¬ ∃ k r, skip_leading_whitespace s = k ++ ':' :: r ∧ ':' ∉ k ∧ r ≠ [] := by
  rcases parseKeyLoop_spec (skip_leading_whitespace s) [] with ⟨u, r', hu, ht, hp⟩ | ⟨hn, hp⟩
  · by_cases hr : r' = []
    · subst hr
      constructor
      · intro _
        rintro ⟨k, r, hks, hkc, hkr⟩
        rw [ht] at hks
        obtain ⟨-, h2⟩ := colon_split_unique u [] k r hu hkc hks
        exact hkr h2.symm
      · intro _
        simp [parse_key, hp]
    · constructor
      · intro he
        simp [parse_key, hp, hr] at he
      · intro hne
        exact absurd ⟨u, r', ht, hu, hr⟩ hne
  · constructor
    · intro _
      rintro ⟨k, r, hks, hkc, hkr⟩
      exact hn (by rw [hks]; simp)
    · intro _
      simp [parse_key, hp]

/-- Step equation: the value loop succeeds at a closing quote. -/
theorem parseValueLoop_quote (cs acc : List Char) :
    parseValueLoop ('"' :: cs) acc = .ok (acc, cs) := by
  rw [parseValueLoop.eq_def]; simp

/-- Step equation: the value loop decodes an escaped quote. -/
theorem parseValueLoop_esc_quote (ds acc : List Char) :
    parseValueLoop ('\\' :: '"' :: ds) acc = parseValueLoop ds (acc ++ ['"']) := by
  rw [parseValueLoop.eq_def]
  simp [show ¬ ('\\' : Char) = '"' from by decide]

/-- Step equation: the value loop rejects an escape followed by a
non-quote character. -/
theorem parseValueLoop_esc_bad (d : Char) (ds acc : List Char) (hd : ¬ d = '"') :
    parseValueLoop ('\\' :: d :: ds) acc = .error ParseError.InvalidValue := by
  rw [parseValueLoop.eq_def]
  simp [show ¬ ('\\' : Char) = '"' from by decide, hd]

/-- Step equation: the value loop rejects an escape that ends the
input. -/
theorem parseValueLoop_esc_eof (acc : List Char) :
    parseValueLoop ['\\'] acc = .error ParseError.InvalidValue := by
  rw [parseValueLoop.eq_def]
  simp [show ¬ ('\\' : Char) = '"' from by decide]

/-- Step equation: the value loop pushes an ordinary character. -/
theorem parseValueLoop_other (c : Char) (cs acc : List Char)
    (hq : ¬ c = '"') (hb : ¬ c = '\\') :
    parseValueLoop (c :: cs) acc = parseValueLoop cs (acc ++ [c]) := by
  rw [parseValueLoop.eq_def]
  simp [hq, hb]

/-- Scanning the re-quoted encoding of a backslash-free value pushes
exactly that value onto the accumulator and continues with the tail. -/
theorem parseValueLoop_encode (v : List Char) (hv : valOk v) :
    ∀ tail acc, parseValueLoop (encodeValue v ++ tail) acc = parseValueLoop tail (acc ++ v) := by
  induction v with
  | nil => intro tail acc; simp [encodeValue]
  | cons c cs ih =>
    have hc : ¬ c = '\\' := fun h => hv (by simp [h])
    have hcs : valOk cs := fun h => hv (List.mem_cons_of_mem _ h)
    intro tail acc
    by_cases hq : c = '"'
    · subst hq
      have he : encodeValue ('"' :: cs) = '\\' :: '"' :: encodeValue cs := by
        simp [encodeValue]
      rw [he, List.cons_append, List.cons_append, parseValueLoop_esc_quote, ih hcs]
      simp
    · simp only [encodeValue, if_neg hq, List.cons_append]
      rw [parseValueLoop_other c _ _ hq hc, ih hcs]
      simp

/-- The value accumulator only ever receives non-backslash characters:
a successful scan from a backslash-free accumulator yields a
backslash-free value. -/
theorem parseValueLoop_no_backslash (t acc : List Char) :
    '\\' ∉ acc → ∀ v r, parseValueLoop t acc = .ok (v, r) → '\\' ∉ v := by
  induction t, acc using parseValueLoop.induct with
  | case1 acc =>
    intro ha v r h
    simp [parseValueLoop] at h
    rw [← h.1]
    exact ha
  | case2 cs acc =>
    intro ha v r h
    rw [parseValueLoop_quote] at h
    simp at h
    rw [← h.1]
    exact ha
  | case3 acc hne =>
    intro ha v r h
    rw [parseValueLoop_esc_eof] at h
    simp at h
  | case4 acc ds hne ih =>
    intro ha v r h
    rw [parseValueLoop_esc_quote] at h
    have ha2 : '\\' ∉ acc ++ ['"'] := by
      intro hm
      rcases List.mem_append.mp hm with hm | hm
      · exact ha hm
      · simp at hm
    exact ih ha2 v r h
  | case5 acc d ds hd hne =>
    intro ha v r h
    rw [parseValueLoop_esc_bad d ds acc hd] at h
    simp at h
  | case6 c cs acc hq hb ih =>
    intro ha v r h
    rw [parseValueLoop_other c cs acc hq hb] at h
    have ha2 : '\\' ∉ acc ++ [c] := by
      intro hm
      rcases List.mem_append.mp hm with hm | hm
      · exact ha hm
      · simp at hm; exact hb hm.symm
    exact ih ha2 v r h

/-- A successful value scan never lengthens the remainder. -/
theorem parseValueLoop_length (t acc : List Char) :
    ∀ v r, parseValueLoop t acc = .ok (v, r) → r.length ≤ t.length := by
  induction t, acc using parseValueLoop.induct with
  | case1 acc =>
    intro v r h
    simp [parseValueLoop] at h
    rw [← h.2]
  | case2 cs acc =>
    intro v r h
    rw [parseValueLoop_quote] at h
    simp at h
    rw [← h.2]
    simp
  | case3 acc hne =>
    intro v r h
    rw [parseValueLoop_esc_eof] at h
    simp at h
  | case4 acc ds hne ih =>
    intro v r h
    rw [parseValueLoop_esc_quote] at h
    have := ih v r h
    simp only [List.length_cons]
    omega
  | case5 acc d ds hd hne =>
    intro v r h
    rw [parseValueLoop_esc_bad d ds acc hd] at h
    simp at h
  | case6 c cs acc hq hb ih =>
    intro v r h
    rw [parseValueLoop_other c cs acc hq hb] at h
    have := ih v r h
    simp only [List.length_cons]
    omega

/-- Rendering fidelity of `parse_value`: a quoted, re-escaped,
backslash-free value followed by the closing quote parses back to the
value with the remainder untouched. -/
theorem parse_value_render (v r : List Char) (hv : valOk v) :
    parse_value ('"' :: (encodeValue v ++ '"' :: r)) = .ok (v, r) := by
  have h0 : skip_leading_whitespace ('"' :: (encodeValue v ++ '"' :: r)) =
      '"' :: (encodeValue v ++ '"' :: r) := by
    apply skipWs_id
    intro c hc
    have hcq : c = '"' := by simpa using hc
    rw [hcq]
    decide
  simp only [parse_value, h0, if_pos rfl]
  rw [parseValueLoop_encode v hv, parseValueLoop_quote]
  simp

/-- When the input ends before a closing quote, the value scan falls
through and succeeds with the accumulated partial value. -/
theorem parse_value_unterminated (v : List Char) (hv : valOk v) :
    parse_value ('"' :: encodeValue v) = .ok (v, []) := by
  have h0 : skip_leading_whitespace ('"' :: encodeValue v) = '"' :: encodeValue v := by
    apply skipWs_id
    intro c hc
    have hcq : c = '"' := by simpa using hc
    rw [hcq]
    decide
  simp only [parse_value, h0, if_pos rfl]
  rw [show encodeValue v = encodeValue v ++ [] by simp, parseValueLoop_encode v hv]
  simp [parseValueLoop]

/-- An escape followed by anything other than a double quote fails the
value scan with `InvalidValue`. -/
theorem parse_value_bad_escape (v : List Char) (c : Char) (r : List Char)
    (hv : valOk v) (hc : ¬ c = '"') :
    parse_value ('"' :: (encodeValue v ++ '\\' :: c :: r)) = .error ParseError.InvalidValue := by
  have h0 : skip_leading_whitespace ('"' :: (encodeValue v ++ '\\' :: c :: r)) =
      '"' :: (encodeValue v ++ '\\' :: c :: r) := by
    apply skipWs_id
    intro d hd
    have hdq : d = '"' := by simpa using hd
    rw [hdq]
    decide
  simp only [parse_value, h0, if_pos rfl]
  rw [parseValueLoop_encode v hv, parseValueLoop_esc_bad _ _ _ hc]
  simp

/-- An escape at the very end of the input fails the value scan with
`InvalidValue`. -/
theorem parse_value_eof_escape (v : List Char) (hv : valOk v) :
    parse_value ('"' :: (encodeValue v ++ ['\\'])) = .error ParseError.InvalidValue := by
  have h0 : skip_leading_whitespace ('"' :: (encodeValue v ++ ['\\'])) =
      '"' :: (encodeValue v ++ ['\\']) := by
    apply skipWs_id
    intro d hd
    have hdq : d = '"' := by simpa using hd
    rw [hdq]
    decide
  simp only [parse_value, h0, if_pos rfl]
  rw [parseValueLoop_encode v hv, parseValueLoop_esc_eof]
  simp

/-- Without a double quote at the first non-whitespace position — in
particular on exhausted input — `parse_value` fails with
`InvalidValue`. -/
theorem parse_value_no_quote (s : List Char)
    (h : ∀ c ∈ (skip_leading_whitespace s).take 1, ¬ c = '"') :
    parse_value s = .error ParseError.InvalidValue := by
  cases hs : skip_leading_whitespace s with
  | nil => simp [parse_value, hs]
  | cons c cs =>
    have hc : ¬ c = '"' := h c (by rw [hs]; simp)
    simp [parse_value, hs, hc]

/-- A successful `parse_value` consumes at least the opening quote, so
the remainder is strictly shorter than the input. -/
theorem parse_value_length (s v r : List Char) (h : parse_value s = .ok (v, r)) :
    r.length < s.length := by
  cases hs : skip_leading_whitespace s with
  | nil => simp [parse_value, hs] at h
  | cons c cs =>
    by_cases hc : c = '"'
    · simp only [parse_value, hs, if_pos hc] at h
      have h1 := parseValueLoop_length cs [] v r h
      have h2 := skipWs_length s
      rw [hs] at h2
      simp only [List.length_cons] at h2
      omega
    · simp [parse_value, hs, hc] at h

/-- Values produced by `parse_value` never contain a backslash. -/
theorem parse_value_no_backslash (s v r : List Char) (h : parse_value s = .ok (v, r)) :
    valOk v := by
  cases hs : skip_leading_whitespace s with
  | nil => simp [parse_value, hs] at h
  | cons c cs =>
    by_cases hc : c = '"'
    · simp only [parse_value, hs, if_pos hc] at h
      exact parseValueLoop_no_backslash cs [] (by simp) v r h
    · simp [parse_value, hs, hc] at h

/-- The top-level loop returns the accumulated mapping when the input
is exhausted, for any fuel. -/
theorem parsePairsAux_nil (fuel : Nat) (m : EventMap) :
    parsePairsAux fuel [] m = .ok m := by
  cases fuel <;> rfl

/-- Step equation: a whitespace character is skipped. -/
theorem parsePairsAux_ws (f : Nat) (c : Char) (cs : List Char) (m : EventMap)
    (h : isWhitespaceRust c = true) :
    parsePairsAux (f + 1) (c :: cs) m = parsePairsAux f cs m := by
  simp [parsePairsAux, h]

/-- Step equation: at a non-whitespace character one key and one value
are parsed and the pair is inserted. -/
theorem parsePairsAux_nonws (f : Nat) (s : List Char) (m : EventMap) (c : Char)
    (cs : List Char) (hs : s = c :: cs) (hws : isWhitespaceRust c = false)
    (k rest v rest2 : List Char)
    (hk : parse_key s = .ok (k, rest)) (hv : parse_value rest = .ok (v, rest2)) :
    parsePairsAux (f + 1) s m = parsePairsAux f rest2 (mapInsert m k v) := by
  subst hs
  simp [parsePairsAux, hws, hk, hv]

/-- Step equation: a key error at a non-whitespace character aborts
the whole parse with that error. -/
theorem parsePairsAux_key_err (f : Nat) (s : List Char) (m : EventMap) (c : Char)
    (cs : List Char) (hs : s = c :: cs) (hws : isWhitespaceRust c = false)
    (e : ParseError) (hk : parse_key s = .error e) :
    parsePairsAux (f + 1) s m = .error e := by
  subst hs
  simp [parsePairsAux, hws, hk]

/-- Step equation: a value error at a non-whitespace character aborts
the whole parse with that error. -/
theorem parsePairsAux_val_err (f : Nat) (s : List Char) (m : EventMap) (c : Char)
    (cs : List Char) (hs : s = c :: cs) (hws : isWhitespaceRust c = false)
    (k rest : List Char) (hk : parse_key s = .ok (k, rest))
    (e : ParseError) (hv : parse_value rest = .error e) :
    parsePairsAux (f + 1) s m = .error e := by
  subst hs
  simp [parsePairsAux, hws, hk, hv]

/-- Skipping a leading whitespace run costs one unit of fuel per
character. -/
theorem parsePairsAux_ws_run (w : List Char) :
    ∀ fuel s m, allWs w → w.length ≤ fuel →
      parsePairsAux fuel (w ++ s) m = parsePairsAux (fuel - w.length) s m := by
  induction w with
  | nil => intro fuel s m _ _; simp
  | cons a w ih =>
    intro fuel s m hw hlen
    cases fuel with
    | zero => simp at hlen
    | succ f =>
      have ha : isWhitespaceRust a = true := hw a (by simp)
      have hw' : allWs w := fun d hd => hw d (by simp [hd])
      have hlen' : w.length ≤ f := by simp at hlen; omega
      rw [List.cons_append, parsePairsAux_ws f a (w ++ s) m ha, ih f s m hw' hlen']
      have harith : f - w.length = f + 1 - (a :: w).length := by
        rw [List.length_cons]; omega
      rw [harith]

/-- A whitespace-only input parses to the accumulated mapping. -/
theorem parsePairsAux_allWs_ok (t : List Char) (fuel : Nat) (m : EventMap)
    (ht : allWs t) (hlen : t.length ≤ fuel) :
    parsePairsAux fuel t m = .ok m := by
  have h := parsePairsAux_ws_run t fuel [] m ht hlen
  rw [List.append_nil] at h
  rw [h, parsePairsAux_nil]

/-- A rendered pair begins with a non-whitespace character. -/
theorem render_head_nonws (k : List Char) (hk : keyOk k) (X : List Char) :
    ∃ c cs, k ++ ':' :: X = c :: cs ∧ isWhitespaceRust c = false := by
  cases k with
  | nil => exact ⟨':', X, rfl, by decide⟩
  | cons a as => exact ⟨a, as ++ ':' :: X, rfl, hk.2 a (by simp)⟩

/-- Main rendering lemma: scanning a well-formed input inserts exactly
its pairs, left to right, into the accumulated mapping. -/
theorem parsePairsAux_render (ps : List (List Char × List Char × List Char)) :
    ∀ fuel trail m, inputOk ps → allWs trail →
      (renderInput ps trail).length ≤ fuel →
      parsePairsAux fuel (renderInput ps trail) m =
        .ok (ps.foldl (fun acc t => mapInsert acc t.2.1 t.2.2) m) := by
  induction ps with
  | nil =>
    intro fuel trail m _ htr hlen
    simp only [renderInput] at hlen ⊢
    simp only [List.foldl_nil]
    exact parsePairsAux_allWs_ok trail fuel m htr hlen
  | cons t ts ih =>
    intro fuel trail m hok htr hlen
    obtain ⟨w, k, v⟩ := t
    have hw : allWs w := (hok (w, k, v) (by simp)).1
    have hk : keyOk k := (hok (w, k, v) (by simp)).2.1
    have hv : valOk v := (hok (w, k, v) (by simp)).2.2
    have hok' : inputOk ts := fun u hu => hok u (by simp [hu])
    have hshape : renderInput ((w, k, v) :: ts) trail =
        w ++ (k ++ ':' :: '"' :: (encodeValue v ++ '"' :: renderInput ts trail)) := by
      simp [renderInput, renderPair]
    rw [hshape] at hlen ⊢
    have hwlen : w.length ≤ fuel := by
      rw [List.length_append] at hlen; omega
    rw [parsePairsAux_ws_run w fuel _ m hw hwlen]
    have hslen : (k ++ ':' :: '"' :: (encodeValue v ++ '"' :: renderInput ts trail)).length ≤
        fuel - w.length := by
      rw [List.length_append] at hlen; omega
    have hf1pos : 1 ≤ fuel - w.length := by
      have h1 : 1 ≤ (k ++ ':' :: '"' :: (encodeValue v ++ '"' :: renderInput ts trail)).length := by
        simp
        omega
      omega
    obtain ⟨f2, hf2⟩ : ∃ f2, fuel - w.length = f2 + 1 := ⟨fuel - w.length - 1, by omega⟩
    rw [hf2]
    obtain ⟨c, cs, hcs, hws⟩ :=
      render_head_nonws k hk ('"' :: (encodeValue v ++ '"' :: renderInput ts trail))
    have hkey : parse_key (k ++ ':' :: '"' :: (encodeValue v ++ '"' :: renderInput ts trail)) =
        .ok (k, '"' :: (encodeValue v ++ '"' :: renderInput ts trail)) :=
      parse_key_render k _ hk (by simp)
    have hval : parse_value ('"' :: (encodeValue v ++ '"' :: renderInput ts trail)) =
        .ok (v, renderInput ts trail) :=
      parse_value_render v (renderInput ts trail) hv
    rw [parsePairsAux_nonws f2 _ m c cs hcs hws k _ v (renderInput ts trail) hkey hval]
    have hrlen : (renderInput ts trail).length ≤ f2 := by
      rw [List.length_append, List.length_cons, List.length_cons, List.length_append,
        List.length_cons] at hslen
      omega
    rw [ih f2 trail (mapInsert m k v) hok' htr hrlen]
    simp [List.foldl]

/-- Key membership distributes over append. -/
theorem containsKey_append (a b : EventMap) (k : List Char) :
    containsKey (a ++ b) k = (containsKey a k || containsKey b k) := by
  induction a with
  | nil => simp [containsKey]
  | cons p a ih =>
    by_cases hp : p.1 = k
    · simp [containsKey, hp]
    · simp [containsKey, hp, ih]

/-- An absent key looks up to nothing. -/
theorem containsKey_false_lookup (m : EventMap) (k : List Char)
    (h : containsKey m k = false) : mapLookup m k = none := by
  induction m with
  | nil => rfl
  | cons p m ih =>
    by_cases hp : p.1 = k
    · simp [containsKey, hp] at h
    · simp [containsKey, hp] at h
      simp [mapLookup, hp, ih h]

/-- Key membership agrees with membership in the key list. -/
theorem containsKey_mem (m : EventMap) (k : List Char) :
    containsKey m k = true ↔ k ∈ m.map Prod.fst := by
  induction m with
  | nil => simp [containsKey]
  | cons p m ih =>
    by_cases hp : p.1 = k
    · simp [containsKey, hp]
    · have hpk : ¬ k = p.1 := fun h => hp h.symm
      simp [containsKey, hp, ih, hpk]

/-- Lookup after appending tries the left map first. -/
theorem mapLookup_append (a b : EventMap) (q : List Char) :
    mapLookup (a ++ b) q =
      match mapLookup a q with
      | some v => some v
      | none => mapLookup b q := by
  induction a with
  | nil => simp [mapLookup]
  | cons p a ih =>
    by_cases hp : p.1 = q
    · simp [mapLookup, hp]
    · simp [mapLookup, hp, ih]

/-- Lookup in the in-place updated map. -/
theorem mapLookup_map_update (k v : List Char) (m : EventMap) : ∀ q,
    mapLookup (m.map (fun p => if p.1 = k then (k, v) else p)) q =
      if q = k then (if containsKey m k then some v else none) else mapLookup m q := by
  induction m with
  | nil => intro q; simp [mapLookup, containsKey]
  | cons p m ih =>
    intro q
    by_cases hp : p.1 = k
    · by_cases hq : q = k
      · subst hq
        have hpq : p.1 = q := hp
        simp [mapLookup, containsKey, hp, hpq]
      · have hkq : ¬ k = q := fun h => hq h.symm
        have hpq : ¬ p.1 = q := fun h => hq (h.symm.trans hp)
        simp [mapLookup, containsKey, hp, hq, hkq, hpq, ih]
    · by_cases hq : q = k
      · subst hq
        have hpq : ¬ p.1 = q := hp
        simp [mapLookup, containsKey, hp, hpq, ih]
      · by_cases hpq : p.1 = q
        · simp [mapLookup, containsKey, hp, hq, hpq, ih]
        · simp [mapLookup, containsKey, hp, hq, hpq, ih]

/-- Lookup after `mapInsert`: the inserted key maps to the new value,
every other key is untouched. -/
theorem mapInsert_lookup (m : EventMap) (k v q : List Char) :
    mapLookup (mapInsert m k v) q = if q = k then some v else mapLookup m q := by
  cases h : containsKey m k with
  | true =>
    simp only [mapInsert, h, if_true]
    rw [mapLookup_map_update, h]
    simp
  | false =>
    simp only [mapInsert, h, Bool.false_eq_true, if_false]
    rw [mapLookup_append]
    by_cases hq : q = k
    · subst hq
      rw [containsKey_false_lookup m q h]
      simp [mapLookup]
    · have hkq : ¬ k = q := fun hh => hq hh.symm
      cases hl : mapLookup m q with
      | some u => simp [hl, hq]
      | none => simp [hl, hq, mapLookup, hkq]

/-- Keys after `mapInsert`: unchanged when the key was present,
extended by the new key otherwise. -/
theorem mapInsert_keys (m : EventMap) (k v : List Char) :
    (mapInsert m k v).map Prod.fst =
      if containsKey m k then m.map Prod.fst else m.map Prod.fst ++ [k] := by
  cases h : containsKey m k with
  | true =>
    simp only [mapInsert, h, if_true]
    rw [List.map_map]
    apply List.map_congr_left
    intro p _
    by_cases hp : p.1 = k
    · simp [hp]
    · simp [hp]
  | false =>
    simp only [mapInsert, h, Bool.false_eq_true, if_false]
    simp

/-- `mapInsert` keeps the key list free of duplicates. -/
theorem mapInsert_nodup (m : EventMap) (k v : List Char)
    (h : (m.map Prod.fst).Nodup) : ((mapInsert m k v).map Prod.fst).Nodup := by
  rw [mapInsert_keys]
  cases hc : containsKey m k with
  | true => simpa using h
  | false =>
    simp only [Bool.false_eq_true, if_false]
    rw [List.nodup_append]
    refine ⟨h, List.nodup_singleton k, ?_⟩
    intro a ha hb
    have hak : a = k := by simpa using hb
    subst hak
    have : containsKey m a = true := (containsKey_mem m a).mpr ha
    rw [hc] at this
    simp at this

/-- Folding the pairs of a well-formed input into a mapping realises
the last-seen-value semantics of duplicate keys. -/
theorem foldl_insert_lookup (ps : List (List Char × List Char × List Char)) :
    ∀ m q, mapLookup (ps.foldl (fun acc t => mapInsert acc t.2.1 t.2.2) m) q =
      match lastValue ps q with
      | some v => some v
      | none => mapLookup m q := by
  induction ps with
  | nil => intro m q; simp [lastValue]
  | cons t ts ih =>
    intro m q
    simp only [List.foldl_cons]
    rw [ih]
    cases hl : lastValue ts q with
    | some v => simp [lastValue, hl]
    | none =>
      simp only [lastValue, hl]
      rw [mapInsert_lookup]
      by_cases hq : q = t.2.1
      · subst hq
        simp
      · have hq2 : ¬ t.2.1 = q := fun h => hq h.symm
        simp [hq, hq2]

/-- Folding pairs into a duplicate-free mapping keeps it
duplicate-free. -/
theorem foldl_insert_nodup (ps : List (List Char × List Char × List Char)) :
    ∀ m : EventMap, (m.map Prod.fst).Nodup →
      ((ps.foldl (fun acc t => mapInsert acc t.2.1 t.2.2) m).map Prod.fst).Nodup := by
  induction ps with
  | nil => intro m hm; simpa using hm
  | cons t ts ih =>
    intro m hm
    simp only [List.foldl_cons]
    exact ih _ (mapInsert_nodup m t.2.1 t.2.2 hm)

/-- Re-inserting the entries of a duplicate-free mapping, in order,
into a mapping containing none of its keys just appends them. -/
theorem foldl_insert_rebuild (m : EventMap) :
    ∀ acc : EventMap, (m.map Prod.fst).Nodup →
      (∀ p ∈ m, containsKey acc p.1 = false) →
      m.foldl (fun a p => mapInsert a p.1 p.2) acc = acc ++ m := by
  induction m with
  | nil => intro acc _ _; simp
  | cons p m ih =>
    intro acc hnd hdisj
    simp only [List.foldl_cons]
    have hc : containsKey acc p.1 = false := hdisj p (by simp)
    have hstep : mapInsert acc p.1 p.2 = acc ++ [p] := by
      simp [mapInsert, hc]
    rw [hstep]
    have hnd' : (m.map Prod.fst).Nodup := by
      simp only [List.map_cons, List.nodup_cons] at hnd
      exact hnd.2
    have hhead : p.1 ∉ m.map Prod.fst := by
      simp only [List.map_cons, List.nodup_cons] at hnd
      exact hnd.1
    rw [ih (acc ++ [p]) hnd' ?_]
    · simp
    · intro q hq
      rw [containsKey_append]
      have h1 : containsKey acc q.1 = false := hdisj q (by simp [hq])
      have h2 : containsKey [p] q.1 = false := by
        simp only [containsKey]
        have : ¬ p.1 = q.1 := by
          intro heq
          exact hhead (heq ▸ List.mem_map_of_mem Prod.fst hq)
        simp [this]
      rw [h1, h2]
      rfl

/-- `mapInsert` with a well-formed pair preserves the mapping
invariant. -/
theorem mapInsert_mapOk (m : EventMap) (k v : List Char)
    (hm : mapOk m) (hk : keyOk k) (hv : valOk v) : mapOk (mapInsert m k v) := by
  refine ⟨mapInsert_nodup m k v hm.1, ?_⟩
  intro p hp
  cases h : containsKey m k with
  | true =>
    simp only [mapInsert, h, if_true] at hp
    rcases List.mem_map.mp hp with ⟨q, hq, hfq⟩
    by_cases hqk : q.1 = k
    · simp only [hqk, if_true] at hfq
      rw [← hfq]
      exact ⟨hk, hv⟩
    · simp only [hqk, if_false] at hfq
      rw [← hfq]
      exact hm.2 q hq
  | false =>
    simp only [mapInsert, h, Bool.false_eq_true, if_false] at hp
    rcases List.mem_append.mp hp with hp | hp
    · exact hm.2 p hp
    · have : p = (k, v) := by simpa using hp
      rw [this]
      exact ⟨hk, hv⟩

/-- Every mapping returned by the scanning loop satisfies the mapping
invariant, provided the accumulated mapping does. -/
theorem parsePairsAux_mapOk : ∀ fuel (s : List Char) (m m' : EventMap),
    mapOk m → parsePairsAux fuel s m = .ok m' → mapOk m' := by
  intro fuel
  induction fuel with
  | zero =>
    intro s m m' hm h
    cases s with
    | nil =>
      rw [parsePairsAux_nil] at h
      simp at h
      rw [← h]
      exact hm
    | cons c cs => simp [parsePairsAux] at h
  | succ f ihf =>
    intro s m m' hm h
    cases s with
    | nil =>
      rw [parsePairsAux_nil] at h
      simp at h
      rw [← h]
      exact hm
    | cons c cs =>
      by_cases hws : isWhitespaceRust c = true
      · rw [parsePairsAux_ws f c cs m hws] at h
        exact ihf cs m m' hm h
      · rw [Bool.not_eq_true] at hws
        cases hk : parse_key (c :: cs) with
        | error e =>
          rw [parsePairsAux_key_err f _ m c cs rfl hws e hk] at h
          simp at h
        | ok kr =>
          obtain ⟨k, rest⟩ := kr
          cases hv : parse_value rest with
          | error e =>
            rw [parsePairsAux_val_err f _ m c cs rfl hws k rest hk e hv] at h
            simp at h
          | ok vr =>
            obtain ⟨v, rest2⟩ := vr
            rw [parsePairsAux_nonws f _ m c cs rfl hws k rest v rest2 hk hv] at h
            have hkk : keyOk k := (parse_key_props _ _ _ hk).1
            have hvv : valOk v := parse_value_no_backslash rest v rest2 hv
            exact ihf rest2 _ m' (mapInsert_mapOk m k v hm hkk hvv) h

/-- Fuel irrelevance: since every iteration of the scanning loop
consumes at least one character, any fuel of at least the input length
produces the same outcome.  This is the termination argument of the
source's cursor loops in fuel form. -/
theorem parsePairsAux_fuel : ∀ (bound fuel fuel' : Nat) (s : List Char) (m : EventMap),
    s.length ≤ bound → s.length ≤ fuel → s.length ≤ fuel' →
    parsePairsAux fuel s m = parsePairsAux fuel' s m := by
  intro bound
  induction bound with
  | zero =>
    intro fuel fuel' s m hb _ _
    have hs : s = [] := List.eq_nil_of_length_eq_zero (by omega)
    subst hs
    rw [parsePairsAux_nil, parsePairsAux_nil]
  | succ n ih =>
    intro fuel fuel' s m hb hf hf'
    cases s with
    | nil => rw [parsePairsAux_nil, parsePairsAux_nil]
    | cons c cs =>
      simp only [List.length_cons] at hb hf hf'
      cases fuel with
      | zero => omega
      | succ f =>
        cases fuel' with
        | zero => omega
        | succ f' =>
          by_cases hws : isWhitespaceRust c = true
          · rw [parsePairsAux_ws f c cs m hws, parsePairsAux_ws f' c cs m hws]
            exact ih f f' cs m (by omega) (by omega) (by omega)
          · rw [Bool.not_eq_true] at hws
            cases hk : parse_key (c :: cs) with
            | error e =>
              rw [parsePairsAux_key_err f _ m c cs rfl hws e hk,
                parsePairsAux_key_err f' _ m c cs rfl hws e hk]
            | ok kr =>
              obtain ⟨k, rest⟩ := kr
              cases hv : parse_value rest with
              | error e =>
                rw [parsePairsAux_val_err f _ m c cs rfl hws k rest hk e hv,
                  parsePairsAux_val_err f' _ m c cs rfl hws k rest hk e hv]
              | ok vr =>
                obtain ⟨v, rest2⟩ := vr
                rw [parsePairsAux_nonws f _ m c cs rfl hws k rest v rest2 hk hv,
                  parsePairsAux_nonws f' _ m c cs rfl hws k rest v rest2 hk hv]
                have hlt1 := parse_key_length (c :: cs) k rest hk
                have hlt2 := parse_value_length rest v rest2 hv
                simp only [List.length_cons] at hlt1
                exact ih f f' rest2 (mapInsert m k v) (by omega) (by omega) (by omega)

/-- The empty mapping satisfies the mapping invariant. -/
theorem mapOk_nil : mapOk ([] : EventMap) := by
  constructor
  · simp
  · intro p hp
    simp at hp

/-- Top-level parse of a single pair whose value's quote is never
closed: the scan succeeds with the accumulated partial value. -/
theorem parse_unterminated_top (w k v : List Char)
    (hw : allWs w) (hk : keyOk k) (hv : valOk v) :
    parse_event_data (w ++ (k ++ ':' :: '"' :: encodeValue v)) = .ok [(k, v)] := by
  rw [parse_event_data]
  rw [parsePairsAux_ws_run w _ _ [] hw (by rw [List.length_append]; omega)]
  have hpos : 1 ≤ (w ++ (k ++ ':' :: '"' :: encodeValue v)).length - w.length := by
    simp only [List.length_append, List.length_cons]
    omega
  obtain ⟨f2, hf2⟩ : ∃ f2, (w ++ (k ++ ':' :: '"' :: encodeValue v)).length - w.length = f2 + 1 :=
    ⟨(w ++ (k ++ ':' :: '"' :: encodeValue v)).length - w.length - 1, by omega⟩
  rw [hf2]
  obtain ⟨c, cs, hcs, hws⟩ := render_head_nonws k hk ('"' :: encodeValue v)
  have hkey : parse_key (k ++ ':' :: '"' :: encodeValue v) = .ok (k, '"' :: encodeValue v) :=
    parse_key_render k _ hk (by simp)
  have hval : parse_value ('"' :: encodeValue v) = .ok (v, []) :=
    parse_value_unterminated v hv
  rw [parsePairsAux_nonws f2 _ [] c cs hcs hws k _ v [] hkey hval]
  rw [parsePairsAux_nil]
  simp [mapInsert, containsKey]

/-- Top-level parse of input whose first pair carries no double quote
at the first non-whitespace position after the consumed colon, with at
least one character after the colon: the parse fails with
`InvalidValue`. -/
theorem parse_badvalue_top (w k rest : List Char)
    (hw : allWs w) (hk : keyOk k) (hr : rest ≠ [])
    (hq : ∀ c ∈ (skip_leading_whitespace rest).take 1, ¬ c = '"') :
    parse_event_data (w ++ (k ++ ':' :: rest)) = .error ParseError.InvalidValue := by
  rw [parse_event_data]
  rw [parsePairsAux_ws_run w _ _ [] hw (by rw [List.length_append]; omega)]
  have hpos : 1 ≤ (w ++ (k ++ ':' :: rest)).length - w.length := by
    simp only [List.length_append, List.length_cons]
    omega
  obtain ⟨f2, hf2⟩ : ∃ f2, (w ++ (k ++ ':' :: rest)).length - w.length = f2 + 1 :=
    ⟨(w ++ (k ++ ':' :: rest)).length - w.length - 1, by omega⟩
  rw [hf2]
  obtain ⟨c, cs, hcs, hws⟩ := render_head_nonws k hk rest
  have hkey : parse_key (k ++ ':' :: rest) = .ok (k, rest) :=
    parse_key_render k rest hk hr
  have hval : parse_value rest = .error ParseError.InvalidValue :=
    parse_value_no_quote rest hq
  exact parsePairsAux_val_err f2 _ [] c cs hcs hws k rest hkey ParseError.InvalidValue hval

/-- Collapsing an identity match on an option. -/
theorem option_match_collapse (o : Option (List Char)) :
    (match o with
     | some v => some v
     | none => none) = o := by
  cases o <;> rfl

/-- Round trip: any mapping obtained from a successful parse can be
re-rendered (one space before each pair, values re-escaped) and
re-parsed into the very same mapping. -/
theorem parse_roundtrip (s : List Char) (m : EventMap)
    (h : parse_event_data s = .ok m) :
    parse_event_data (renderMap m) = .ok m := by
  have hok : mapOk m := parsePairsAux_mapOk s.length s [] m mapOk_nil h
  have hin : inputOk (m.map fun p => ([' '], p.1, p.2)) := by
    intro t ht
    rcases List.mem_map.mp ht with ⟨p, hp, hpt⟩
    refine ⟨?_, ?_, ?_⟩
    · rw [← hpt]
      show allWs [' ']
      decide
    · rw [← hpt]
      show keyOk p.1
      exact (hok.2 p hp).1
    · rw [← hpt]
      show valOk p.2
      exact (hok.2 p hp).2
  have hstep := parsePairsAux_render (m.map fun p => ([' '], p.1, p.2))
    (renderMap m).length [] [] hin (by intro c hc; simp at hc)
    (by simp [renderMap])
  rw [parse_event_data]
  show parsePairsAux (renderMap m).length
    (renderInput (m.map fun p => ([' '], p.1, p.2)) []) [] = .ok m
  rw [hstep, List.foldl_map]
  show Except.ok (m.foldl (fun (a : EventMap) (p : List Char × List Char) =>
    mapInsert a p.1 p.2) []) = Except.ok m
  rw [foldl_insert_rebuild m [] hok.1 (fun p _ => rfl)]
  simp

/-- Re-quoting distributes over concatenation. -/
theorem encodeValue_append (a b : List Char) :
    encodeValue (a ++ b) = encodeValue a ++ encodeValue b := by
  induction a with
  | nil => simp [encodeValue]
  | cons c cs ih =>
    by_cases hc : c = '"'
    · simp [encodeValue, hc, ih]
    · simp [encodeValue, hc, ih]

/-- Claim C1 counterexample: on input `key:"abc` (opening quote found,
input exhausted before an unescaped closing quote) the parse does not
fail with `InvalidValue`; it succeeds with the accumulated partial
value `abc`. -/
theorem claim_C1_counterexample :
    parse_event_data ['k', 'e', 'y', ':', '"', 'a', 'b', 'c'] =
      .ok [(['k', 'e', 'y'], ['a', 'b', 'c'])] ∧
    parse_event_data ['k', 'e', 'y', ':', '"', 'a', 'b', 'c'] ≠
      .error ParseError.InvalidValue := by
  exact ⟨by decide, by decide⟩

/-- Claim C1 (amended): when a value's opening quote is found and the
input ends before an unescaped closing double quote is reached
(without hitting an invalid escape first), the value scan succeeds
with the accumulated partial value, and the whole parse succeeds with
that partial value in the mapping. -/
theorem claim_C1 (w k v : List Char) (hw : allWs w) (hk : keyOk k) (hv : valOk v) :
    parse_value ('"' :: encodeValue v) = .ok (v, []) ∧
    parse_event_data (w ++ (k ++ ':' :: '"' :: encodeValue v)) = .ok [(k, v)] :=
  ⟨parse_value_unterminated v hv, parse_unterminated_top w k v hw hk hv⟩

/-- Claim C1 witness at a concrete unterminated input. -/
theorem claim_C1_witness :
    parse_value ('"' :: encodeValue ['a', 'b', 'c']) = .ok (['a', 'b', 'c'], []) ∧
    parse_event_data ([' '] ++ (['k'] ++ ':' :: '"' :: encodeValue ['a', 'b', 'c'])) =
      .ok [(['k'], ['a', 'b', 'c'])] :=
  claim_C1 [' '] ['k'] ['a', 'b', 'c'] (by decide) (by decide) (by decide)

/-- Claim C2: every well-formed input of whitespace-separated
`key:"value"` pairs parses successfully to the mapping obtained by
inserting the pairs left to right; that mapping holds exactly the
last-seen value of each distinct key and has no duplicate keys.  In
particular the duplicate-key input `a:"1" a:"2"` parses to the
single-entry mapping a maps-to 2, and the empty input parses to the
empty mapping. -/
theorem claim_C2 (ps : List (List Char × List Char × List Char)) (trail : List Char)
    (hps : inputOk ps) (htr : allWs trail) :
    parse_event_data (renderInput ps trail) =
      .ok (ps.foldl (fun acc t => mapInsert acc t.2.1 t.2.2) []) ∧
    (∀ q, mapLookup (ps.foldl (fun acc t => mapInsert acc t.2.1 t.2.2) []) q = lastValue ps q) ∧
    ((ps.foldl (fun acc t => mapInsert acc t.2.1 t.2.2) []).map Prod.fst).Nodup ∧
    parse_event_data ['a', ':', '"', '1', '"', ' ', 'a', ':', '"', '2', '"'] =
      .ok [(['a'], ['2'])] ∧
    parse_event_data [] = .ok [] := by
  refine ⟨?_, ?_, ?_, by decide, by decide⟩
  · exact parsePairsAux_render ps (renderInput ps trail).length trail [] hps htr (Nat.le_refl _)
  · intro q
    rw [foldl_insert_lookup ps [] q]
    exact option_match_collapse (lastValue ps q)
  · exact foldl_insert_nodup ps [] (by simp)

/-- Claim C2 witness at a concrete two-pair input. -/
theorem claim_C2_witness :
    parse_event_data (renderInput [([' '], ['a'], ['1']), ([' '], ['b'], ['2'])] [' ']) =
      .ok ([([' '], ['a'], ['1']), ([' '], ['b'], ['2'])].foldl
        (fun acc t => mapInsert acc t.2.1 t.2.2) []) :=
  (claim_C2 [([' '], ['a'], ['1']), ([' '], ['b'], ['2'])] [' '] (by decide) (by decide)).1

/-- Claim C3 counterexample: on input `a:` the key is terminated by a
consumed colon and the input is exhausted immediately after it, yet
the parse fails with `InvalidKey`, not `InvalidValue` as claimed. -/
theorem claim_C3_counterexample :
    parse_event_data ['a', ':'] = .error ParseError.InvalidKey ∧
    parse_event_data ['a', ':'] ≠ .error ParseError.InvalidValue := by
  exact ⟨by decide, by decide⟩

/-- Claim C3 (amended): when a key is terminated by a consumed colon
with at least one character following the colon, and the next
non-whitespace position does not hold a double quote — including the
case where the input is exhausted after the following whitespace — the
parse fails with `InvalidValue`.  (When the input is exhausted
immediately after the colon the parse fails with `InvalidKey`
instead.) -/
theorem claim_C3 (w k rest : List Char) (hw : allWs w) (hk : keyOk k)
    (hr : rest ≠ []) (hq : ∀ c ∈ (skip_leading_whitespace rest).take 1, ¬ c = '"') :
    parse_event_data (w ++ (k ++ ':' :: rest)) = .error ParseError.InvalidValue :=
  parse_badvalue_top w k rest hw hk hr hq

/-- Claim C3 witness: colon followed by whitespace and end of input. -/
theorem claim_C3_witness :
    parse_event_data ([' '] ++ (['a'] ++ ':' :: [' '])) = .error ParseError.InvalidValue :=
  claim_C3 [' '] ['a'] [' '] (by decide) (by decide) (by decide) (by decide)

/-- Claim C4: the two-character sequence backslash-quote inside a
quoted value decodes to a single literal double quote, and concretely
the input with key a and value characters x backslash quote y parses
to the mapping with the three-character value x quote y. -/
theorem claim_C4 :
    (∀ v1 v2 r : List Char, valOk v1 → valOk v2 →
      parse_value ('"' :: (encodeValue v1 ++ '\\' :: '"' :: (encodeValue v2 ++ '"' :: r))) =
        .ok (v1 ++ '"' :: v2, r)) ∧
    parse_event_data ['a', ':', '"', 'x', '\\', '"', 'y', '"'] =
      .ok [(['a'], ['x', '"', 'y'])] := by
  constructor
  · intro v1 v2 r h1 h2
    have hv : valOk (v1 ++ '"' :: v2) := by
      intro hm
      rcases List.mem_append.mp hm with hm | hm
      · exact h1 hm
      · rcases List.mem_cons.mp hm with hm | hm
        · exact absurd hm (by decide)
        · exact h2 hm
    have hee : encodeValue (v1 ++ '"' :: v2) =
        encodeValue v1 ++ '\\' :: '"' :: encodeValue v2 := by
      rw [encodeValue_append]
      simp [encodeValue]
    have hthis := parse_value_render (v1 ++ '"' :: v2) r hv
    rw [hee] at hthis
    simpa using hthis
  · decide

/-- Claim C4 witness at concrete content. -/
theorem claim_C4_witness :
    parse_value ('"' :: (encodeValue ['x'] ++ '\\' :: '"' :: (encodeValue ['y'] ++ '"' :: []))) =
      .ok (['x'] ++ '"' :: ['y'], []) :=
  (claim_C4).1 ['x'] ['y'] [] (by decide) (by decide)

/-- Claim C5: inside a quoted value, a backslash followed by any
character other than a double quote, or a backslash that ends the
input, fails the parse with `InvalidValue`; concretely the input with
value characters x backslash q fails with `InvalidValue`. -/
theorem claim_C5 :
    (∀ (v : List Char) (c : Char) (r : List Char), valOk v → ¬ c = '"' →
      parse_value ('"' :: (encodeValue v ++ '\\' :: c :: r)) = .error ParseError.InvalidValue) ∧
    (∀ v : List Char, valOk v →
      parse_value ('"' :: (encodeValue v ++ ['\\'])) = .error ParseError.InvalidValue) ∧
    parse_event_data ['a', ':', '"', 'x', '\\', 'q', '"'] = .error ParseError.InvalidValue := by
  refine ⟨?_, ?_, by decide⟩
  · intro v c r hv hc
    exact parse_value_bad_escape v c r hv hc
  · intro v hv
    exact parse_value_eof_escape v hv

/-- Claim C5 witness at a concrete bad escape. -/
theorem claim_C5_witness :
    parse_value ('"' :: (encodeValue ['x'] ++ '\\' :: 'q' :: [])) =
      .error ParseError.InvalidValue :=
  (claim_C5).1 ['x'] 'q' [] (by decide) (by decide)

/-- Claim C6 counterexample: on input `a:` the colon is present — the
input splits as the colon-free key a followed by the colon — so no key
segment reaches the end of input before a colon is found, yet
`parse_key` fails with `InvalidKey`. -/
theorem claim_C6_counterexample :
    parse_key ['a', ':'] = .error ParseError.InvalidKey ∧
    (['a', ':'] : List Char) = ['a'] ++ ':' :: [] ∧
    ':' ∉ (['a'] : List Char) := by
  exact ⟨by decide, by decide, by decide⟩

/-- Claim C6 (amended): `parse_key` fails with `InvalidKey` exactly
when the whitespace-stripped input has no splitting into a colon-free
key, the colon, and a non-empty remainder — i.e. when either no colon
occurs before the end of input, or the colon is consumed with nothing
following it.  A key terminated by a consumed colon with at least one
character after the colon never produces `InvalidKey`. -/
theorem claim_C6 (s : List Char) :
    parse_key s = .error ParseError.InvalidKey ↔
    ¬ ∃ k r, skip_leading_whitespace s = k ++ ':' :: r ∧ ':' ∉ k ∧ r ≠ [] :=
  parse_key_invalidKey_iff s

/-- Claim C6 witness: a key with no colon at all fails with
`InvalidKey`. -/
theorem claim_C6_witness : parse_key ['a'] = .error ParseError.InvalidKey := by
  refine (claim_C6 ['a']).mpr ?_
  rintro ⟨k, r, h1, h2, h3⟩
  rw [show skip_leading_whitespace ['a'] = ['a'] from by decide] at h1
  cases k with
  | nil => simp at h1
  | cons b bs => simp at h1

/-- Claim C7: for every mapping produced by a successful parse,
re-rendering every entry as `key:"value"` with double quotes in the
value re-escaped, entries separated by whitespace, and re-parsing
yields a mapping equal to the original. -/
theorem claim_C7 (s : List Char) (m : EventMap) (h : parse_event_data s = .ok m) :
    parse_event_data (renderMap m) = .ok m :=
  parse_roundtrip s m h

/-- Claim C7 witness at a concrete parsed mapping. -/
theorem claim_C7_witness :
    parse_event_data (renderMap [(['a'], ['1'])]) = .ok [(['a'], ['1'])] :=
  claim_C7 ['a', ':', '"', '1', '"'] [(['a'], ['1'])] (by decide)

/-- Claim C8 counterexample: with value `0xd97f` under key one (whose
masked value 0xd97f XOR 0x17F = 0xD800 is a UTF-16 surrogate) the
four values all parse as 16-bit hexadecimal integers, yet the program
does not compute and insert a fifth value: the debug print's
`char::from_u32(..).expect` aborts, modelled by `none`. -/
theorem claim_C8_counterexample :
    fromStrRadix16 (trimStartMatches0x ['0', 'x', 'd', '9', '7', 'f']) = some 0xd97f ∧
    fromStrRadix16 (trimStartMatches0x ['0', 'x', '1', '5', '0']) = some 0x150 ∧
    fromStrRadix16 (trimStartMatches0x ['0', 'x', '1', '4', 'a']) = some 0x14a ∧
    fromStrRadix16 (trimStartMatches0x ['0', 'x', '1', '4', '4']) = some 0x144 ∧
    figure_fifth_value
      [(['o', 'n', 'e'], ['0', 'x', 'd', '9', '7', 'f']),
       (['t', 'w', 'o'], ['0', 'x', '1', '5', '0']),
       (['t', 'h', 'r', 'e', 'e'], ['0', 'x', '1', '4', 'a']),
       (['f', 'o', 'u', 'r'], ['0', 'x', '1', '4', '4'])] = none ∧
    enrich_with_fifth
      [(['o', 'n', 'e'], ['0', 'x', 'd', '9', '7', 'f']),
       (['t', 'w', 'o'], ['0', 'x', '1', '5', '0']),
       (['t', 'h', 'r', 'e', 'e'], ['0', 'x', '1', '4', 'a']),
       (['f', 'o', 'u', 'r'], ['0', 'x', '1', '4', '4'])] = none := by
  exact ⟨by decide, by decide, by decide, by decide, by decide, by decide⟩

/-- Claim C8 (amended): for every mapping whose keys one, two, three,
four hold strings parsing (after trimming a leading 0x) as 16-bit
hexadecimal integers v1..v4, and whose masked values mi = vi XOR 0x17F
are all valid Unicode scalar values (no mi in the surrogate range
0xD800..0xDFFF — otherwise the debug print aborts the program), the
program derives the fifth value as (m4 + (1 + trailing zero count of
(m3 XOR m4)) * 4) XOR 0x17F in 16-bit arithmetic and inserts it under
the new key five as 0x followed by lowercase hex; concretely the
values 0x154, 0x150, 0x14a, 0x144 yield the entry five maps-to 0x13c. -/
theorem claim_C8 (m : EventMap) (s1 s2 s3 s4 : List Char) (v1 v2 v3 v4 : Nat)
    (h1 : mapLookup m ['o', 'n', 'e'] = some s1)
    (h2 : mapLookup m ['t', 'w', 'o'] = some s2)
    (h3 : mapLookup m ['t', 'h', 'r', 'e', 'e'] = some s3)
    (h4 : mapLookup m ['f', 'o', 'u', 'r'] = some s4)
    (p1 : fromStrRadix16 (trimStartMatches0x s1) = some v1)
    (p2 : fromStrRadix16 (trimStartMatches0x s2) = some v2)
    (p3 : fromStrRadix16 (trimStartMatches0x s3) = some v3)
    (p4 : fromStrRadix16 (trimStartMatches0x s4) = some v4)
    (g1 : isSurrogate (v1 ^^^ XOR_KEY) = false)
    (g2 : isSurrogate (v2 ^^^ XOR_KEY) = false)
    (g3 : isSurrogate (v3 ^^^ XOR_KEY) = false)
    (g4 : isSurrogate (v4 ^^^ XOR_KEY) = false) :
    figure_fifth_value m =
      some ((((v4 ^^^ XOR_KEY) +
        (trailingZeros16 ((v3 ^^^ XOR_KEY) ^^^ (v4 ^^^ XOR_KEY)) + 1) * 4) % 65536) ^^^ XOR_KEY) ∧
    enrich_with_fifth m = some (mapInsert m ['f', 'i', 'v', 'e']
      ('0' :: 'x' :: natToHex ((((v4 ^^^ XOR_KEY) +
        (trailingZeros16 ((v3 ^^^ XOR_KEY) ^^^ (v4 ^^^ XOR_KEY)) + 1) * 4) % 65536) ^^^ XOR_KEY))) ∧
    enrich_with_fifth
      [(['o', 'n', 'e'], ['0', 'x', '1', '5', '4']),
       (['t', 'w', 'o'], ['0', 'x', '1', '5', '0']),
       (['t', 'h', 'r', 'e', 'e'], ['0', 'x', '1', '4', 'a']),
       (['f', 'o', 'u', 'r'], ['0', 'x', '1', '4', '4'])] =
      some [(['o', 'n', 'e'], ['0', 'x', '1', '5', '4']),
       (['t', 'w', 'o'], ['0', 'x', '1', '5', '0']),
       (['t', 'h', 'r', 'e', 'e'], ['0', 'x', '1', '4', 'a']),
       (['f', 'o', 'u', 'r'], ['0', 'x', '1', '4', '4']),
       (['f', 'i', 'v', 'e'], ['0', 'x', '1', '3', 'c'])] := by
  have hfig : figure_fifth_value m =
      some ((((v4 ^^^ XOR_KEY) +
        (trailingZeros16 ((v3 ^^^ XOR_KEY) ^^^ (v4 ^^^ XOR_KEY)) + 1) * 4) % 65536) ^^^ XOR_KEY) := by
    simp only [figure_fifth_value, h1, h2, h3, h4, p1, p2, p3, p4, g1, g2, g3, g4]
    simp
  refine ⟨hfig, ?_, by decide⟩
  simp only [enrich_with_fifth, hfig]

/-- Claim C8 witness at the concrete scenario values. -/
theorem claim_C8_witness :
    figure_fifth_value
      [(['o', 'n', 'e'], ['0', 'x', '1', '5', '4']),
       (['t', 'w', 'o'], ['0', 'x', '1', '5', '0']),
       (['t', 'h', 'r', 'e', 'e'], ['0', 'x', '1', '4', 'a']),
       (['f', 'o', 'u', 'r'], ['0', 'x', '1', '4', '4'])] =
      some ((((0x144 ^^^ XOR_KEY) +
        (trailingZeros16 ((0x14a ^^^ XOR_KEY) ^^^ (0x144 ^^^ XOR_KEY)) + 1) * 4) % 65536) ^^^
          XOR_KEY) :=
  (claim_C8
    [(['o', 'n', 'e'], ['0', 'x', '1', '5', '4']),
     (['t', 'w', 'o'], ['0', 'x', '1', '5', '0']),
     (['t', 'h', 'r', 'e', 'e'], ['0', 'x', '1', '4', 'a']),
     (['f', 'o', 'u', 'r'], ['0', 'x', '1', '4', '4'])]
    ['0', 'x', '1', '5', '4'] ['0', 'x', '1', '5', '0']
    ['0', 'x', '1', '4', 'a'] ['0', 'x', '1', '4', '4']
    0x154 0x150 0x14a 0x144
    (by decide) (by decide) (by decide) (by decide)
    (by decide) (by decide) (by decide) (by decide)
    (by decide) (by decide) (by decide) (by decide)).1

/-- Claim C9: the scanner always terminates.  A successful key parse
and a successful value parse each strictly shorten the remaining
input, and the top-level loop's outcome is independent of its fuel
once the fuel is at least the input length — every iteration consumes
at least one character, so the loop finishes within input-length
iterations. -/
theorem claim_C9 :
    (∀ s k r : List Char, parse_key s = .ok (k, r) → r.length < s.length) ∧
    (∀ s v r : List Char, parse_value s = .ok (v, r) → r.length < s.length) ∧
    (∀ (fuel fuel' : Nat) (s : List Char) (m : EventMap),
      s.length ≤ fuel → s.length ≤ fuel' →
      parsePairsAux fuel s m = parsePairsAux fuel' s m) := by
  refine ⟨parse_key_length, parse_value_length, ?_⟩
  intro fuel fuel' s m hf hf'
  exact parsePairsAux_fuel s.length fuel fuel' s m (Nat.le_refl _) hf hf'

/-- Claim C9 witness at concrete inputs and fuels. -/
theorem claim_C9_witness :
    (['b'] : List Char).length < (['a', ':', 'b'] : List Char).length ∧
    parsePairsAux 9 ['a', ':', '"', 'b', '"'] [] =
      parsePairsAux 5 ['a', ':', '"', 'b', '"'] [] :=
  ⟨claim_C9.1 ['a', ':', 'b'] ['a'] ['b'] (by decide),
   claim_C9.2.2 9 5 ['a', ':', '"', 'b', '"'] [] (by decide) (by decide)⟩

/-- Claim C10: in every mapping returned by a successful parse, no
value contains a backslash character. -/
theorem claim_C10 (s : List Char) (m : EventMap) (h : parse_event_data s = .ok m) :
    ∀ p ∈ m, '\\' ∉ p.2 := by
  have hok := parsePairsAux_mapOk s.length s [] m mapOk_nil h
  intro p hp
  exact (hok.2 p hp).2

/-- Claim C10 witness at a concrete parse. -/
theorem claim_C10_witness : '\\' ∉ (['b'] : List Char) :=
  claim_C10 ['a', ':', '"', 'b', '"'] [(['a'], ['b'])] (by decide) (['a'], ['b']) (by decide)
